import Mathlib

/-!
Shallow embedding of the rendering core of `src/drawer.js` (term-ui).

The drawing surface, the DOM tokenizer (`document.createElement('div')`
plus `innerHTML` / `childNodes`) and the glyph metrics provider
(`ctx.measureText`) are external collaborators; they enter the model as
parameters of `Cfg` (`tokenize`, `charWidth`).  Text measurement is
modelled as additive over code points, matching the bookkeeping the
wrapping loop itself performs.  JS arrays with holes (the `result`
array of `parse` is written at a strictly non-decreasing index, leaving
`undefined` holes for blank lines) are modelled as
`List (Option (List Log))`, a hole being `none`.
-/

namespace TermUI

/-- Entry/segment kind: the INPUT / OUTPUT constants of `constant.js`. -/
inductive EType where
  | input
  | output
deriving DecidableEq, Repr

/-- One child node produced by the external DOM tokenizer for a raw line:
its `textContent` and the `color` / `background` attributes
(`none` models both a text node and a missing attribute). -/
structure Tok where
  text : String
  color : Option String
  background : Option String
deriving DecidableEq, Repr

/-- One positioned segment (a `log` object built by `parse`): the spread
`...data` contributes `type`; `text`, `width`, `left`, `color`,
`background` are set explicitly. -/
structure Log where
  type : EType
  text : String
  width : Nat
  left : Nat
  color : Option String
  background : Option String
deriving DecidableEq, Repr

/-- The argument of `emit` after validation: `{ type, text, replace }`,
with an absent `replace` modelled as `false` (it is only used as a
truth value). -/
structure Data where
  type : EType
  text : String
  replace : Bool
deriving DecidableEq, Repr

/-- Layout configuration read by the renderer (all pixel quantities are
already multiplied by `pixelRatio`, as in the constructor):
`padLeft = contentPadding[3]`, `padTop = contentPadding[0]`,
`maxLength = floor(contentHeight / (fontSize + logGap))` is stored as
computed.  `charWidth` is the external glyph metrics provider,
`tokenize` the external DOM tokenizer (including the script-tag strip
applied to the line before `innerHTML`), `esc` the `escape` helper of
`utils.js` and `prefixStr` the configured prompt. -/
structure Cfg where
  padLeft : Nat
  padTop : Nat
  contentWidth : Nat
  contentHeight : Nat
  maxLength : Nat
  pixelRatio : Nat
  fontSize : Nat
  logGap : Nat
  charWidth : Char → Nat
  tokenize : String → List Tok
  prefixStr : String
  esc : String → String

/-- `ctx.measureText` on a string, modelled additively over code points. -/
def mwidth (cw : Char → Nat) (s : String) : Nat :=
  (s.data.map cw).sum

/-- JS `result[index] ? result[index].push(log) : (result[index] = [log])`
on an array with holes: assigning past the end extends the array with
holes (`none`). -/
def jsSet (res : List (Option (List Log))) (i : Nat) (log : Log) :
    List (Option (List Log)) :=
  if h : i < res.length then
    res.set i (some ((res[i]).getD [] ++ [log]))
  else
    res ++ List.replicate (i - res.length) none ++ [some [log]]

/-- State of the outer loop of `parse`: the `result` array, the current
line-group `index` and the horizontal cursor `left`. -/
structure PState where
  res : List (Option (List Log))
  index : Nat
  left : Nat
deriving Repr

/-- State of the character-level fallback loop inside `parse`. -/
structure CState where
  res : List (Option (List Log))
  index : Nat
  left : Nat
  textTmp : String
  isNewLine : Bool
deriving Repr

/-- One iteration of the character-level fallback loop of `parse`
(`for (let k = 0; ...)`): accumulate the letter while it still fits
strictly below `contentWidth`, otherwise close the current segment
and start a fresh line group. -/
def charStep (cfg : Cfg) (ty : EType) (tok : Tok) (lastLeft : Nat)
    (st : CState) (c : Char) : CState :=
  let letterSize := cfg.charWidth c
  let nextLetterWidth := st.left + letterSize
  if nextLetterWidth < cfg.contentWidth then
    { st with textTmp := st.textTmp.push c, left := nextLetterWidth }
  else
    { res := jsSet st.res st.index
        { type := ty
          text := st.textTmp
          width := mwidth cfg.charWidth st.textTmp
          left := if st.isNewLine then cfg.padLeft else lastLeft
          color := tok.color
          background := tok.background }
      index := st.index + 1
      left := cfg.padLeft + letterSize
      textTmp := String.singleton c
      isNewLine := true }

/-- Processing of one word token (one `childNodes[j]`) by `parse`:
greedy placement when the whole word fits, character-level wrapping
otherwise (the trailing accumulated text is always emitted at the
line's left inset). -/
def procWord (cfg : Cfg) (ty : EType) (st : PState) (tok : Tok) : PState :=
  let wordSize := mwidth cfg.charWidth tok.text
  let nextWordWidth := st.left + wordSize
  if cfg.contentWidth < nextWordWidth then
    let c1 := tok.text.data.foldl (charStep cfg ty tok st.left)
      { res := st.res, index := st.index, left := st.left
        textTmp := "", isNewLine := false }
    { res := jsSet c1.res c1.index
        { type := ty
          text := c1.textTmp
          width := mwidth cfg.charWidth c1.textTmp
          left := cfg.padLeft
          color := tok.color
          background := tok.background }
      index := c1.index
      left := c1.left }
  else
    { res := jsSet st.res st.index
        { type := ty
          text := tok.text
          width := wordSize
          left := st.left
          color := tok.color
          background := tok.background }
      index := st.index
      left := nextWordWidth }

/-- Processing of one raw line by `parse`: fold the line's word tokens,
then `index += 1; left = contentPadding[3]`. -/
def procLine (cfg : Cfg) (ty : EType) (st : PState) (toks : List Tok) :
    PState :=
  let st1 := toks.foldl (procWord cfg ty) st
  { res := st1.res, index := st1.index + 1, left := cfg.padLeft }

/-- The segmentation loop of `parse` over already tokenized raw lines:
starts with an empty `result`, `index = 0`, `left = contentPadding[3]`. -/
def parseToks (cfg : Cfg) (ty : EType) (lines : List (List Tok)) :
    List (Option (List Log)) :=
  (lines.foldl (procLine cfg ty) { res := [], index := 0, left := cfg.padLeft }).res

/-- Splitting on the regex `\r?\n` (a lone `\r` is not a separator). -/
def splitLinesAux : List Char → List Char → List String
  | [], acc => [String.mk acc.reverse]
  | '\r' :: '\n' :: rest, acc => String.mk acc.reverse :: splitLinesAux rest []
  | '\n' :: rest, acc => String.mk acc.reverse :: splitLinesAux rest []
  | c :: rest, acc => splitLinesAux rest (c :: acc)

/-- `data.text.split(/\r?\n/)`. -/
def splitLines (s : String) : List String :=
  splitLinesAux s.data []

/-- The whole of `parse(data)`: for an INPUT entry the method first
overwrites `data.text` with `prefix + escape(data.text)` (an observable
mutation of the caller's object); the first component of the result is
the entry object as it stands after the call, the second the produced
line groups. -/
def parseData (cfg : Cfg) (d : Data) : Data × List (Option (List Log)) :=
  let d2 := if d.type = EType.input then
      { d with text := cfg.prefixStr ++ cfg.esc d.text }
    else d
  (d2, parseToks cfg d2.type ((splitLines d2.text).map cfg.tokenize))

/-- Renderer state relevant to the cache / window claims. -/
structure DState where
  cacheLogs : List (Option (List Log))
  renderLogs : List (Option (List Log))
deriving Repr

/-- ECMAScript `Array.prototype.slice(start, stop)` with integer
arguments: negative indices count from the end, results clamp into
`[0, length]`; holes are copied as holes. -/
def jsSlice (l : List (Option (List Log))) (start stop : Int) :
    List (Option (List Log)) :=
  let len : Int := l.length
  let k := if start < 0 then max (len + start) 0 else min start len
  let fin := if stop < 0 then max (len + stop) 0 else min stop len
  (l.take fin.toNat).drop k.toNat

/-- `emit(data)` after validation: `if (data.replace) cacheLogs.pop()`
(a no-op on an empty cache), push the parsed groups, and re-derive the
window as `cacheLogs.slice(-maxLength)`. -/
def emitModel (cfg : Cfg) (st : DState) (d : Data) : DState :=
  let cache1 := if d.replace then st.cacheLogs.dropLast else st.cacheLogs
  let cache2 := cache1 ++ (parseData cfg d).2
  { cacheLogs := cache2
    renderLogs := jsSlice cache2 (-(cfg.maxLength : Int)) cache2.length }

/-- `clear()`: empties both the cache and the window. -/
def clearModel (_st : DState) : DState :=
  { cacheLogs := [], renderLogs := [] }

/-- `Math.ceil((top * pixelRatio) / (fontSize + logGap))` of
`renderByTop`, over an exact rational scroll offset. -/
def startIdx (cfg : Cfg) (top : ℚ) : Int :=
  ⌈top * (cfg.pixelRatio : ℚ) / ((cfg.fontSize : ℚ) + (cfg.logGap : ℚ))⌉

/-- `renderByTop(top)`: re-derives the window as
`cacheLogs.slice(startIndex, startIndex + maxLength)`. -/
def renderByTop (cfg : Cfg) (st : DState) (top : ℚ) : DState :=
  { st with renderLogs :=
      jsSlice st.cacheLogs (startIdx cfg top) (startIdx cfg top + cfg.maxLength) }

/-- `lastCacheLog` / `lastRenderLog`: the last segment of the last
group, `none` when the list is empty or its last entry is a hole. -/
def lastOf (res : List (Option (List Log))) : Option Log :=
  match res.getLast? with
  | some (some gs) => gs.getLast?
  | _ => none

/-- `cacheEditable`: focus held and the most recent cached segment
comes from an INPUT entry. -/
def cacheEditable (isFocus : Bool) (st : DState) : Bool :=
  isFocus && (match lastOf st.cacheLogs with
    | some log => log.type == EType.input
    | none => false)

/-- `renderEditable`: `cacheEditable` and the last cached segment is
the last rendered one (the source compares object references; the
model compares structurally). -/
def renderEditable (isFocus : Bool) (st : DState) : Bool :=
  cacheEditable isFocus st && (lastOf st.cacheLogs == lastOf st.renderLogs)

/-- Modelled from the spec: `clamp` of `utils.js` is absent from
`src/`; the call sites use `clamp(x, 0, Infinity)`, i.e. `max x 0`. -/
def clamp0 (x : ℚ) : ℚ := max x 0

/-- `Array.prototype.indexOf` (structural equality standing in for JS
reference equality), returning -1 when absent. -/
def jsIndexOf (l : List (Option (List Log))) (x : Option (List Log)) : Int :=
  let i := l.indexOf x
  if i < l.length then (i : Int) else -1

/-- Layout notifications emitted to the host by `renderContent`,
already divided by `pixelRatio` (host coordinate space). -/
inductive Ev where
  | cursor (left top : ℚ)
  | scroll (scrollHeight scrollTop : ℚ)
deriving DecidableEq, Repr

/-- `renderContent()`: the drawing loop reads `logs.length` for every
entry of `renderLogs`, so a hole (`undefined`, left by a blank raw
line) raises a TypeError; otherwise, when `renderEditable` holds, a
`cursor` and a `scroll` notification are emitted (and none otherwise). -/
def renderContentModel (cfg : Cfg) (isFocus : Bool) (st : DState) :
    Except String (List Ev) :=
  if st.renderLogs.all (·.isSome) then
    Except.ok (if renderEditable isFocus st then
      match lastOf st.renderLogs with
      | some llog =>
        let pr : ℚ := cfg.pixelRatio
        let cLeft : ℚ := ((llog.left + llog.width + cfg.pixelRatio * 4 : Nat) : ℚ) / pr
        let cTop : ℚ := ((cfg.padTop + (cfg.fontSize + cfg.logGap) * (st.renderLogs.length - 1) : Nat) : ℚ) / pr
        let scrollHeight : ℚ := ((st.cacheLogs.length * (cfg.fontSize + cfg.logGap) : Nat) : ℚ) / pr
        let lastIndex : Int := jsIndexOf st.cacheLogs ((st.renderLogs.getLast?).getD none)
        let scrollTop : ℚ :=
          (((lastIndex + 1) * ((cfg.fontSize : Int) + cfg.logGap) - cfg.contentHeight : Int) : ℚ) / pr
        [Ev.cursor cLeft cTop, Ev.scroll (clamp0 scrollHeight) (clamp0 scrollTop)]
      | none => []
    else [])
  else
    Except.error "TypeError"

/-- All segments of a result array in display order (holes contribute
nothing). -/
def allLogs (res : List (Option (List Log))) : List Log :=
  (res.map (fun o => o.getD [])).flatten

/-- Number of real (non-hole) line groups in a result array. -/
def countSome (res : List (Option (List Log))) : Nat :=
  res.countP (fun o => o.isSome)

/-- The characters of all segments of a result array, in display order. -/
def segChars (res : List (Option (List Log))) : List Char :=
  ((allLogs res).map (fun l => l.text.data)).flatten

/-- A concrete stand-in for the external DOM tokenizer on markup-free
text: an empty line has no child nodes, any other line is one text
node. -/
def tokenize0 (s : String) : List Tok :=
  if s = "" then [] else [{ text := s, color := none, background := none }]

/-- A plain concrete configuration (pixelRatio 1, 1px glyphs, no left
inset, content width 100) used to instantiate the external collaborators
in concrete evaluations. -/
def cfg0 : Cfg :=
  { padLeft := 0, padTop := 0, contentWidth := 100, contentHeight := 10,
    maxLength := 10, pixelRatio := 1, fontSize := 1, logGap := 0,
    charWidth := fun _ => 1, tokenize := tokenize0, prefixStr := "$ ",
    esc := id }

/-- Wide-glyph configuration: the glyph metrics provider measures `X`
at 90px and everything else at 1px; content width 100 with the
source's 15px left inset (pixelRatio 1). -/
def cfgX : Cfg :=
  { padLeft := 15, padTop := 45, contentWidth := 100, contentHeight := 50,
    maxLength := 10, pixelRatio := 1, fontSize := 1, logGap := 0,
    charWidth := fun c => if c = 'X' then 90 else 1,
    tokenize := tokenize0, prefixStr := "", esc := id }

/-- Narrow configuration: content width 10, 1px glyphs, no inset. -/
def cfg3 : Cfg :=
  { padLeft := 0, padTop := 0, contentWidth := 10, contentHeight := 10,
    maxLength := 10, pixelRatio := 1, fontSize := 1, logGap := 0,
    charWidth := fun _ => 1, tokenize := tokenize0, prefixStr := "",
    esc := id }

def tokX : Tok := { text := "X", color := none, background := none }

def tokAbc : Tok := { text := "abc", color := none, background := none }

def logAbc : Log :=
  { type := EType.output, text := "abc", width := 3, left := 0
    color := none, background := none }

def logXwide : Log :=
  { type := EType.output, text := "X", width := 90, left := 15
    color := none, background := none }

def logXempty : Log :=
  { type := EType.output, text := "", width := 0, left := 15
    color := none, background := none }

/-- A one-segment output group labelled by its text, for populating
concrete caches. -/
def outG (s : String) : Option (List Log) :=
  some [{ type := EType.output, text := s, width := 1, left := 0
          color := none, background := none }]

/-- A five-group cache with an empty window. -/
def st3 : DState :=
  { cacheLogs := [outG "0", outG "1", outG "2", outG "3", outG "4"]
    renderLogs := [] }

/-- A one-character input segment, as cached after an input keystroke. -/
def inLog : Log :=
  { type := EType.input, text := "x", width := 1, left := 0
    color := none, background := none }

/-- State whose cache and window both hold the single input group. -/
def stIn : DState :=
  { cacheLogs := [some [inLog]], renderLogs := [some [inLog]] }

def dA : Data := { type := EType.output, text := "a", replace := false }

def dEmptyOut : Data := { type := EType.output, text := "", replace := false }

def dBlank : Data := { type := EType.output, text := "a\n\nb", replace := false }

def dInX : Data := { type := EType.input, text := "x", replace := false }

/-- A result array whose final entry is a real, non-empty group (or
the empty array): every write of the segmentation loop targets the
final slot or beyond, so this holds for every `parse` result. -/
def LastFull (res : List (Option (List Log))) : Prop :=
  res = [] ∨ ∃ gs, res.getLast? = some (some gs) ∧ gs ≠ []

/-- Invariant of the character fallback loop (with `ll` the `lastLeft`
captured at entry): the write index stays within one slot of the array
end, every emitted segment fits, and `left` accounts exactly for the
anchor of the pending segment plus its accumulated width while staying
within the content width and right of the left inset. -/
def CInv (cfg : Cfg) (ll : Nat) (st : CState) : Prop :=
  st.res.length ≤ st.index + 1 ∧
  (∀ log ∈ allLogs st.res, log.left + log.width ≤ cfg.contentWidth) ∧
  (if st.isNewLine then cfg.padLeft else ll) + mwidth cfg.charWidth st.textTmp = st.left ∧
  st.left ≤ cfg.contentWidth ∧
  cfg.padLeft ≤ st.left

/-- Invariant of the outer word loop: index within one slot of the
array end, all emitted segments fit, and the horizontal cursor lies
between the left inset and the content width. -/
def PInv (cfg : Cfg) (st : PState) : Prop :=
  st.res.length ≤ st.index + 1 ∧
  (∀ log ∈ allLogs st.res, log.left + log.width ≤ cfg.contentWidth) ∧
  cfg.padLeft ≤ st.left ∧
  st.left ≤ cfg.contentWidth

/-! Helper lemmas about `jsSet` and the flattened views of a result
array.  The segmentation loop only ever writes at an index `i` with
`res.length ≤ i + 1` (the index never moves backwards past the end of
the array), and under that invariant a write appends the new segment
at the very end of the flattened segment list. -/

theorem set_last_eq {α : Type} (l : List α) (x : α) (hne : l ≠ []) :
    l.set (l.length - 1) x = l.dropLast ++ [x] := by
  have hlt : l.length - 1 < l.length := by
    cases l with
    | nil => exact absurd rfl hne
    | cons a t => simp
  rw [List.set_eq_take_cons_drop x hlt, List.dropLast_eq_take]
  have : l.length - 1 + 1 = l.length := by omega
  rw [this, List.drop_eq_nil_of_le (le_refl _)]

theorem length_jsSet (res : List (Option (List Log))) (i : Nat) (L : Log) :
    (jsSet res i L).length = max res.length (i + 1) := by
  unfold jsSet
  split
  · next h => simp [List.length_set]; omega
  · next h => simp [List.length_replicate]; omega

theorem allLogs_append (l l' : List (Option (List Log))) :
    allLogs (l ++ l') = allLogs l ++ allLogs l' := by
  simp [allLogs, List.map_append, List.flatten_append]

theorem allLogs_replicate_none (k : Nat) :
    allLogs (List.replicate k none) = [] := by
  induction k with
  | zero => rfl
  | succ n ih => simp [allLogs, List.replicate_succ] at ih ⊢

theorem allLogs_singleton (o : Option (List Log)) :
    allLogs [o] = o.getD [] := by
  simp [allLogs]

theorem allLogs_jsSet (res : List (Option (List Log))) (i : Nat) (L : Log)
    (h : res.length ≤ i + 1) :
    allLogs (jsSet res i L) = allLogs res ++ [L] := by
  unfold jsSet
  split
  · next hlt =>
    have hne : res ≠ [] := by
      intro h0
      rw [h0] at hlt
      simp at hlt
    have hi : i = res.length - 1 := by omega
    subst hi
    have hval : res[res.length - 1] = res.getLast hne :=
      (List.getLast_eq_getElem res hne).symm
    rw [set_last_eq _ _ hne, allLogs_append, allLogs_singleton]
    conv_rhs => rw [← List.dropLast_append_getLast hne, allLogs_append,
      allLogs_singleton]
    simp [hval]
  · next hge =>
    rw [allLogs_append, allLogs_append, allLogs_replicate_none,
      allLogs_singleton]
    simp

theorem countSome_jsSet_of_le (res : List (Option (List Log))) (i : Nat)
    (L : Log) (h : res.length ≤ i) :
    countSome (jsSet res i L) = countSome res + 1 := by
  unfold jsSet
  split
  · next hlt => omega
  · next hge =>
    simp [countSome, List.countP_append, List.countP_replicate,
      List.countP_cons]

theorem countSome_jsSet_le (res : List (Option (List Log))) (i : Nat)
    (L : Log) (h : res.length ≤ i + 1) :
    countSome res ≤ countSome (jsSet res i L) := by
  unfold jsSet
  split
  · next hlt =>
    have hne : res ≠ [] := by
      intro h0
      rw [h0] at hlt
      simp at hlt
    have hi : i = res.length - 1 := by omega
    subst hi
    rw [set_last_eq _ _ hne]
    conv_lhs => rw [← List.dropLast_append_getLast hne]
    simp only [countSome, List.countP_append]
    have : List.countP (fun o => o.isSome) [res.getLast hne] ≤
        List.countP (fun o => o.isSome) [some ((res[res.length - 1]).getD [] ++ [L])] := by
      simp [List.countP_cons]
      split <;> omega
    omega
  · next hge =>
    simp [countSome, List.countP_append, List.countP_replicate,
      List.countP_cons]

theorem getLast?_jsSet (res : List (Option (List Log))) (i : Nat) (L : Log)
    (h : res.length ≤ i + 1) :
    ∃ gs, (jsSet res i L).getLast? = some (some gs) ∧ gs ≠ [] := by
  unfold jsSet
  split
  · next hlt =>
    have hne : res ≠ [] := by
      intro h0
      rw [h0] at hlt
      simp at hlt
    have hi : i = res.length - 1 := by omega
    subst hi
    rw [set_last_eq _ _ hne]
    refine ⟨(res[res.length - 1]).getD [] ++ [L], ?_, by simp⟩
    rw [List.getLast?_append_of_ne_nil _ (by simp)]
    rfl
  · next hge =>
    refine ⟨[L], ?_, by simp⟩
    rw [List.getLast?_append_of_ne_nil _ (by simp)]
    rfl

theorem mem_allLogs (res : List (Option (List Log))) (gs : List Log)
    (log : Log) (hgs : some gs ∈ res) (hlog : log ∈ gs) :
    log ∈ allLogs res := by
  unfold allLogs
  rw [List.mem_flatten]
  exact ⟨gs, by simpa using List.mem_map_of_mem (fun o => o.getD []) hgs, hlog⟩

/-! Generic fold invariance, string measurement facts, and the
well-formedness invariant `res.length ≤ index + 1` of the
segmentation loop (the write index never falls behind the end of the
result array by more than one slot). -/

theorem foldl_inv {α β : Type} (f : β → α → β) (P : β → Prop)
    (l : List α) (h : ∀ b, ∀ a ∈ l, P b → P (f b a)) :
    ∀ b, P b → P (l.foldl f b) := by
  induction l with
  | nil => intro b hb; exact hb
  | cons a t ih =>
    intro b hb
    exact ih (fun b' a' ha' hb' => h b' a' (List.mem_cons_of_mem _ ha') hb')
      (f b a) (h b a (List.mem_cons_self _ _) hb)

theorem string_data_push (s : String) (c : Char) :
    (s.push c).data = s.data ++ [c] := by
  cases s
  rfl

theorem mwidth_push (cw : Char → Nat) (s : String) (c : Char) :
    mwidth cw (s.push c) = mwidth cw s + cw c := by
  simp [mwidth, string_data_push]

theorem mwidth_singleton (cw : Char → Nat) (c : Char) :
    mwidth cw (String.singleton c) = cw c := by
  simp [mwidth, String.singleton]

theorem mwidth_empty (cw : Char → Nat) : mwidth cw "" = 0 := rfl

theorem charStep_wf (cfg : Cfg) (ty : EType) (tok : Tok) (ll : Nat)
    (c : Char) (st : CState) (h : st.res.length ≤ st.index + 1) :
    (charStep cfg ty tok ll st c).res.length ≤
      (charStep cfg ty tok ll st c).index + 1 := by
  simp only [charStep]
  by_cases hc : st.left + cfg.charWidth c < cfg.contentWidth
  · simp only [if_pos hc]
    exact h
  · simp only [if_neg hc, length_jsSet]
    omega

theorem charFold_wf (cfg : Cfg) (ty : EType) (tok : Tok) (ll : Nat)
    (cs : List Char) (c0 : CState) (h : c0.res.length ≤ c0.index + 1) :
    (cs.foldl (charStep cfg ty tok ll) c0).res.length ≤
      (cs.foldl (charStep cfg ty tok ll) c0).index + 1 :=
  foldl_inv (charStep cfg ty tok ll)
    (fun st => st.res.length ≤ st.index + 1) cs
    (fun st c _ hst => charStep_wf cfg ty tok ll c st hst) c0 h

theorem procWord_wf (cfg : Cfg) (ty : EType) (tok : Tok) (st : PState)
    (h : st.res.length ≤ st.index + 1) :
    (procWord cfg ty st tok).res.length ≤ (procWord cfg ty st tok).index + 1 := by
  simp only [procWord]
  by_cases hw : cfg.contentWidth < st.left + mwidth cfg.charWidth tok.text
  · simp only [if_pos hw, length_jsSet]
    have h1 := charFold_wf cfg ty tok st.left tok.text.data
      { res := st.res, index := st.index, left := st.left
        textTmp := "", isNewLine := false } h
    omega
  · simp only [if_neg hw, length_jsSet]
    omega

theorem wordFold_wf (cfg : Cfg) (ty : EType) (toks : List Tok) (st : PState)
    (h : st.res.length ≤ st.index + 1) :
    (toks.foldl (procWord cfg ty) st).res.length ≤
      (toks.foldl (procWord cfg ty) st).index + 1 :=
  foldl_inv (procWord cfg ty) (fun s => s.res.length ≤ s.index + 1) toks
    (fun s t _ hs => procWord_wf cfg ty t s hs) st h

theorem procLine_wf (cfg : Cfg) (ty : EType) (toks : List Tok) (st : PState)
    (h : st.res.length ≤ st.index + 1) :
    (procLine cfg ty st toks).res.length ≤ (procLine cfg ty st toks).index + 1 := by
  have h1 := wordFold_wf cfg ty toks st h
  simp only [procLine]
  omega

/-! Text preservation: the flattened character content of the
segmentation output is exactly the character content of the word
tokens, in order — the wrapping loop moves text between segments but
never drops or duplicates a character. -/

theorem segChars_jsSet (res : List (Option (List Log))) (i : Nat) (L : Log)
    (h : res.length ≤ i + 1) :
    segChars (jsSet res i L) = segChars res ++ L.text.data := by
  unfold segChars
  rw [allLogs_jsSet res i L h]
  simp

theorem charStep_chars (cfg : Cfg) (ty : EType) (tok : Tok) (ll : Nat)
    (c : Char) (st : CState) (h : st.res.length ≤ st.index + 1) :
    segChars (charStep cfg ty tok ll st c).res ++
        (charStep cfg ty tok ll st c).textTmp.data
      = segChars st.res ++ st.textTmp.data ++ [c] := by
  simp only [charStep]
  by_cases hc : st.left + cfg.charWidth c < cfg.contentWidth
  · simp only [if_pos hc]
    simp [string_data_push]
  · simp only [if_neg hc]
    rw [segChars_jsSet _ _ _ h]
    simp [String.singleton]

theorem charFold_chars (cfg : Cfg) (ty : EType) (tok : Tok) (ll : Nat)
    (cs : List Char) :
    ∀ c0 : CState, c0.res.length ≤ c0.index + 1 →
    segChars (cs.foldl (charStep cfg ty tok ll) c0).res ++
        (cs.foldl (charStep cfg ty tok ll) c0).textTmp.data
      = segChars c0.res ++ c0.textTmp.data ++ cs := by
  induction cs with
  | nil => intro c0 _; simp
  | cons c t ih =>
    intro c0 h0
    have h1 := charStep_wf cfg ty tok ll c c0 h0
    rw [List.foldl_cons, ih _ h1, charStep_chars cfg ty tok ll c c0 h0]
    simp

theorem procWord_chars (cfg : Cfg) (ty : EType) (tok : Tok) (st : PState)
    (h : st.res.length ≤ st.index + 1) :
    segChars (procWord cfg ty st tok).res = segChars st.res ++ tok.text.data := by
  simp only [procWord]
  by_cases hw : cfg.contentWidth < st.left + mwidth cfg.charWidth tok.text
  · simp only [if_pos hw]
    have h1 := charFold_wf cfg ty tok st.left tok.text.data
      { res := st.res, index := st.index, left := st.left
        textTmp := "", isNewLine := false } h
    rw [segChars_jsSet _ _ _ h1]
    have h2 := charFold_chars cfg ty tok st.left tok.text.data
      { res := st.res, index := st.index, left := st.left
        textTmp := "", isNewLine := false } h
    simpa using h2
  · simp only [if_neg hw]
    rw [segChars_jsSet _ _ _ h]

theorem wordFold_chars (cfg : Cfg) (ty : EType) (toks : List Tok) :
    ∀ st : PState, st.res.length ≤ st.index + 1 →
    segChars ((toks.foldl (procWord cfg ty) st)).res
      = segChars st.res ++ (toks.map (fun t => t.text.data)).flatten := by
  induction toks with
  | nil => intro st _; simp
  | cons t ts ih =>
    intro st h
    rw [List.foldl_cons, ih _ (procWord_wf cfg ty t st h),
      procWord_chars cfg ty t st h]
    simp

theorem procLine_chars (cfg : Cfg) (ty : EType) (toks : List Tok)
    (st : PState) (h : st.res.length ≤ st.index + 1) :
    segChars (procLine cfg ty st toks).res
      = segChars st.res ++ (toks.map (fun t => t.text.data)).flatten := by
  simp only [procLine]
  exact wordFold_chars cfg ty toks st h

theorem lineFold_chars (cfg : Cfg) (ty : EType) (lines : List (List Tok)) :
    ∀ st : PState, st.res.length ≤ st.index + 1 →
    segChars ((lines.foldl (procLine cfg ty) st)).res
      = segChars st.res ++
          (lines.map (fun toks => (toks.map (fun t => t.text.data)).flatten)).flatten := by
  induction lines with
  | nil => intro st _; simp
  | cons l ls ih =>
    intro st h
    rw [List.foldl_cons, ih _ (procLine_wf cfg ty l st h),
      procLine_chars cfg ty l st h]
    simp

/-! Width bookkeeping: under the amended hypothesis that every
character fits together with the left inset (`padLeft + charWidth c ≤
contentWidth`), every emitted segment satisfies
`left + width ≤ contentWidth`. -/

theorem charStep_cinv (cfg : Cfg) (ty : EType) (tok : Tok) (ll : Nat)
    (c : Char) (st : CState)
    (hc : cfg.padLeft + cfg.charWidth c ≤ cfg.contentWidth)
    (h : CInv cfg ll st) :
    CInv cfg ll (charStep cfg ty tok ll st c) := by
  obtain ⟨h1, h2, h3, h4, h5⟩ := h
  simp only [charStep]
  by_cases hlt : st.left + cfg.charWidth c < cfg.contentWidth
  · simp only [if_pos hlt]
    refine ⟨h1, h2, ?_, ?_, ?_⟩
    · dsimp only
      simp only [mwidth_push]
      omega
    · dsimp only
      omega
    · dsimp only
      omega
  · simp only [if_neg hlt]
    refine ⟨?_, ?_, ?_, ?_, ?_⟩
    · dsimp only
      simp only [length_jsSet]
      omega
    · dsimp only
      intro log hmem
      rw [allLogs_jsSet _ _ _ h1] at hmem
      rcases List.mem_append.mp hmem with hm | hm
      · exact h2 log hm
      · rw [List.mem_singleton] at hm
        subst hm
        dsimp only
        rw [h3]
        exact h4
    · dsimp only
      simp [mwidth_singleton]
    · dsimp only
      exact hc
    · dsimp only
      omega

theorem charFold_cinv (cfg : Cfg) (ty : EType) (tok : Tok) (ll : Nat)
    (cs : List Char) (c0 : CState)
    (hcs : ∀ c ∈ cs, cfg.padLeft + cfg.charWidth c ≤ cfg.contentWidth)
    (h : CInv cfg ll c0) :
    CInv cfg ll (cs.foldl (charStep cfg ty tok ll) c0) :=
  foldl_inv (charStep cfg ty tok ll) (CInv cfg ll) cs
    (fun st c hcmem hst => charStep_cinv cfg ty tok ll c st (hcs c hcmem) hst)
    c0 h

theorem procWord_pinv (cfg : Cfg) (ty : EType) (tok : Tok) (st : PState)
    (hcs : ∀ c ∈ tok.text.data, cfg.padLeft + cfg.charWidth c ≤ cfg.contentWidth)
    (h : PInv cfg st) :
    PInv cfg (procWord cfg ty st tok) := by
  obtain ⟨h1, h2, h3, h4⟩ := h
  simp only [procWord]
  by_cases hw : cfg.contentWidth < st.left + mwidth cfg.charWidth tok.text
  · simp only [if_pos hw]
    have hc0 : CInv cfg st.left
        { res := st.res, index := st.index, left := st.left
          textTmp := "", isNewLine := false } := by
      refine ⟨h1, h2, ?_, h4, h3⟩
      simp [mwidth_empty]
    have hcf := charFold_cinv cfg ty tok st.left tok.text.data _ hcs hc0
    obtain ⟨k1, k2, k3, k4, k5⟩ := hcf
    refine ⟨?_, ?_, k5, k4⟩
    · dsimp only
      simp only [length_jsSet]
      omega
    · dsimp only
      intro log hmem
      rw [allLogs_jsSet _ _ _ k1] at hmem
      rcases List.mem_append.mp hmem with hm | hm
      · exact k2 log hm
      · rw [List.mem_singleton] at hm
        subst hm
        dsimp only
        have hbase : cfg.padLeft ≤
            (if (tok.text.data.foldl (charStep cfg ty tok st.left)
                { res := st.res, index := st.index, left := st.left
                  textTmp := "", isNewLine := false }).isNewLine
              then cfg.padLeft else st.left) := by
          split
          · exact le_refl _
          · exact h3
        omega
  · simp only [if_neg hw]
    push_neg at hw
    refine ⟨?_, ?_, ?_, ?_⟩
    · dsimp only
      simp only [length_jsSet]
      omega
    · dsimp only
      intro log hmem
      rw [allLogs_jsSet _ _ _ h1] at hmem
      rcases List.mem_append.mp hmem with hm | hm
      · exact h2 log hm
      · rw [List.mem_singleton] at hm
        subst hm
        simpa using hw
    · dsimp only
      omega
    · dsimp only
      omega

theorem procLine_pinv (cfg : Cfg) (ty : EType) (toks : List Tok) (st : PState)
    (hpad : cfg.padLeft ≤ cfg.contentWidth)
    (hcs : ∀ t ∈ toks, ∀ c ∈ t.text.data,
      cfg.padLeft + cfg.charWidth c ≤ cfg.contentWidth)
    (h : PInv cfg st) :
    PInv cfg (procLine cfg ty st toks) := by
  have hfold : PInv cfg (toks.foldl (procWord cfg ty) st) :=
    foldl_inv (procWord cfg ty) (PInv cfg) toks
      (fun s t htmem hs => procWord_pinv cfg ty t s (hcs t htmem) hs) st h
  obtain ⟨k1, k2, k3, k4⟩ := hfold
  exact ⟨by simp only [procLine]; omega, k2, le_refl _, hpad⟩

theorem lineFold_pinv (cfg : Cfg) (ty : EType) (lines : List (List Tok))
    (st : PState)
    (hpad : cfg.padLeft ≤ cfg.contentWidth)
    (hcs : ∀ toks ∈ lines, ∀ t ∈ toks, ∀ c ∈ t.text.data,
      cfg.padLeft + cfg.charWidth c ≤ cfg.contentWidth)
    (h : PInv cfg st) :
    PInv cfg (lines.foldl (procLine cfg ty) st) :=
  foldl_inv (procLine cfg ty) (PInv cfg) lines
    (fun s toks htmem hs => procLine_pinv cfg ty toks s hpad (hcs toks htmem) hs)
    st h

/-! Group counting: each raw line whose tokenization is non-empty
contributes at least one real (non-hole) group.  A line always starts
with the write index at or past the end of the result array
(`res.length ≤ index`), so its first write creates a fresh group. -/

theorem charStep_count_mono (cfg : Cfg) (ty : EType) (tok : Tok) (ll : Nat)
    (c : Char) (st : CState) (h : st.res.length ≤ st.index + 1) :
    countSome st.res ≤ countSome (charStep cfg ty tok ll st c).res := by
  simp only [charStep]
  by_cases hc : st.left + cfg.charWidth c < cfg.contentWidth
  · simp only [if_pos hc]
    exact le_refl _
  · simp only [if_neg hc]
    exact countSome_jsSet_le st.res st.index _ h

theorem charFold_count_mono (cfg : Cfg) (ty : EType) (tok : Tok) (ll : Nat)
    (cs : List Char) :
    ∀ c0 : CState, c0.res.length ≤ c0.index + 1 →
    countSome c0.res ≤ countSome (cs.foldl (charStep cfg ty tok ll) c0).res := by
  induction cs with
  | nil => intro c0 _; exact le_refl _
  | cons c t ih =>
    intro c0 h0
    exact le_trans (charStep_count_mono cfg ty tok ll c c0 h0)
      (ih _ (charStep_wf cfg ty tok ll c c0 h0))

theorem charFold_count (cfg : Cfg) (ty : EType) (tok : Tok) (ll : Nat)
    (cs : List Char) :
    ∀ c0 : CState, c0.res.length ≤ c0.index →
    ((cs.foldl (charStep cfg ty tok ll) c0).res = c0.res ∧
      (cs.foldl (charStep cfg ty tok ll) c0).index = c0.index) ∨
    countSome c0.res + 1 ≤ countSome (cs.foldl (charStep cfg ty tok ll) c0).res := by
  induction cs with
  | nil => intro c0 _; exact Or.inl ⟨rfl, rfl⟩
  | cons c t ih =>
    intro c0 h0
    rw [List.foldl_cons]
    by_cases hc : c0.left + cfg.charWidth c < cfg.contentWidth
    · have hstep : (charStep cfg ty tok ll c0 c).res = c0.res ∧
          (charStep cfg ty tok ll c0 c).index = c0.index := by
        simp [charStep, if_pos hc]
      have h0' : (charStep cfg ty tok ll c0 c).res.length ≤
          (charStep cfg ty tok ll c0 c).index := by
        rw [hstep.1, hstep.2]
        exact h0
      rcases ih _ h0' with ⟨hr, hi⟩ | hcnt
      · exact Or.inl ⟨hr.trans hstep.1, hi.trans hstep.2⟩
      · rw [hstep.1] at hcnt
        exact Or.inr hcnt
    · have hstep : countSome c0.res + 1 ≤ countSome (charStep cfg ty tok ll c0 c).res := by
        simp only [charStep, if_neg hc]
        rw [countSome_jsSet_of_le c0.res c0.index _ h0]
      have hwf : (charStep cfg ty tok ll c0 c).res.length ≤
          (charStep cfg ty tok ll c0 c).index + 1 :=
        charStep_wf cfg ty tok ll c c0 (by omega)
      exact Or.inr (le_trans hstep (charFold_count_mono cfg ty tok ll t _ hwf))

theorem procWord_count_bump (cfg : Cfg) (ty : EType) (tok : Tok) (st : PState)
    (h : st.res.length ≤ st.index) :
    countSome st.res + 1 ≤ countSome (procWord cfg ty st tok).res := by
  simp only [procWord]
  by_cases hw : cfg.contentWidth < st.left + mwidth cfg.charWidth tok.text
  · simp only [if_pos hw]
    rcases charFold_count cfg ty tok st.left tok.text.data
        { res := st.res, index := st.index, left := st.left
          textTmp := "", isNewLine := false } h with ⟨hr, hi⟩ | hcnt
    · rw [countSome_jsSet_of_le _ _ _ (by rw [hr, hi]; exact h)]
      rw [hr]
    · have hwf := charFold_wf cfg ty tok st.left tok.text.data
        { res := st.res, index := st.index, left := st.left
          textTmp := "", isNewLine := false } (by exact Nat.le_succ_of_le h)
      exact le_trans hcnt (countSome_jsSet_le _ _ _ hwf)
  · simp only [if_neg hw]
    rw [countSome_jsSet_of_le st.res st.index _ h]

theorem procWord_count_mono (cfg : Cfg) (ty : EType) (tok : Tok) (st : PState)
    (h : st.res.length ≤ st.index + 1) :
    countSome st.res ≤ countSome (procWord cfg ty st tok).res := by
  simp only [procWord]
  by_cases hw : cfg.contentWidth < st.left + mwidth cfg.charWidth tok.text
  · simp only [if_pos hw]
    have hwf := charFold_wf cfg ty tok st.left tok.text.data
      { res := st.res, index := st.index, left := st.left
        textTmp := "", isNewLine := false } h
    refine le_trans ?_ (countSome_jsSet_le _ _ _ hwf)
    exact charFold_count_mono cfg ty tok st.left tok.text.data
      { res := st.res, index := st.index, left := st.left
        textTmp := "", isNewLine := false } h
  · simp only [if_neg hw]
    exact countSome_jsSet_le st.res st.index _ h

theorem wordFold_count_mono (cfg : Cfg) (ty : EType) (toks : List Tok) :
    ∀ st : PState, st.res.length ≤ st.index + 1 →
    countSome st.res ≤ countSome (toks.foldl (procWord cfg ty) st).res := by
  induction toks with
  | nil => intro st _; exact le_refl _
  | cons t ts ih =>
    intro st h
    exact le_trans (procWord_count_mono cfg ty t st h)
      (ih _ (procWord_wf cfg ty t st h))

theorem procLine_count_bump (cfg : Cfg) (ty : EType) (toks : List Tok)
    (st : PState) (h : st.res.length ≤ st.index) (hne : toks ≠ []) :
    countSome st.res + 1 ≤ countSome (procLine cfg ty st toks).res := by
  cases toks with
  | nil => exact absurd rfl hne
  | cons t ts =>
    simp only [procLine, List.foldl_cons]
    exact le_trans (procWord_count_bump cfg ty t st h)
      (wordFold_count_mono cfg ty ts _
        (procWord_wf cfg ty t st (by omega)))

theorem procLine_lineStart (cfg : Cfg) (ty : EType) (toks : List Tok)
    (st : PState) (h : st.res.length ≤ st.index) :
    (procLine cfg ty st toks).res.length ≤ (procLine cfg ty st toks).index := by
  have h1 := wordFold_wf cfg ty toks st (by omega)
  simp only [procLine]
  omega

theorem lineFold_count (cfg : Cfg) (ty : EType) (lines : List (List Tok)) :
    ∀ st : PState, st.res.length ≤ st.index →
    countSome st.res + lines.countP (fun toks => !toks.isEmpty) ≤
      countSome ((lines.foldl (procLine cfg ty) st)).res := by
  induction lines with
  | nil => intro st _; simp
  | cons l ls ih =>
    intro st h
    rw [List.foldl_cons, List.countP_cons]
    have hnext := ih (procLine cfg ty st l) (procLine_lineStart cfg ty l st h)
    cases l with
    | nil =>
      have hres : (procLine cfg ty st []).res = st.res := rfl
      rw [hres] at hnext
      simp only [List.isEmpty_nil, Bool.not_true, Bool.false_eq_true, if_false]
      omega
    | cons t ts =>
      have hbump := procLine_count_bump cfg ty (t :: ts) st h (by simp)
      simp only [List.isEmpty_cons, Bool.not_false, if_true]
      omega

/-! Segment provenance: every segment built by the loop carries the
(post-mutation) entry type, and the final entry of a non-empty parse
result is always a real, non-empty group. -/

theorem charStep_types (cfg : Cfg) (ty : EType) (tok : Tok) (ll : Nat)
    (c : Char) (st : CState) (hwf : st.res.length ≤ st.index + 1)
    (h : ∀ log ∈ allLogs st.res, log.type = ty) :
    ∀ log ∈ allLogs (charStep cfg ty tok ll st c).res, log.type = ty := by
  simp only [charStep]
  by_cases hc : st.left + cfg.charWidth c < cfg.contentWidth
  · simp only [if_pos hc]
    exact h
  · simp only [if_neg hc]
    intro log hmem
    rw [allLogs_jsSet _ _ _ hwf] at hmem
    rcases List.mem_append.mp hmem with hm | hm
    · exact h log hm
    · rw [List.mem_singleton] at hm
      subst hm
      rfl

theorem charFold_types (cfg : Cfg) (ty : EType) (tok : Tok) (ll : Nat)
    (cs : List Char) :
    ∀ c0 : CState, c0.res.length ≤ c0.index + 1 →
    (∀ log ∈ allLogs c0.res, log.type = ty) →
    ∀ log ∈ allLogs (cs.foldl (charStep cfg ty tok ll) c0).res, log.type = ty := by
  induction cs with
  | nil => intro c0 _ h; exact h
  | cons c t ih =>
    intro c0 hwf h
    exact ih _ (charStep_wf cfg ty tok ll c c0 hwf)
      (charStep_types cfg ty tok ll c c0 hwf h)

theorem procWord_types (cfg : Cfg) (ty : EType) (tok : Tok) (st : PState)
    (hwf : st.res.length ≤ st.index + 1)
    (h : ∀ log ∈ allLogs st.res, log.type = ty) :
    ∀ log ∈ allLogs (procWord cfg ty st tok).res, log.type = ty := by
  simp only [procWord]
  by_cases hw : cfg.contentWidth < st.left + mwidth cfg.charWidth tok.text
  · simp only [if_pos hw]
    have hwf1 := charFold_wf cfg ty tok st.left tok.text.data
      { res := st.res, index := st.index, left := st.left
        textTmp := "", isNewLine := false } hwf
    have h1 := charFold_types cfg ty tok st.left tok.text.data
      { res := st.res, index := st.index, left := st.left
        textTmp := "", isNewLine := false } hwf h
    intro log hmem
    rw [allLogs_jsSet _ _ _ hwf1] at hmem
    rcases List.mem_append.mp hmem with hm | hm
    · exact h1 log hm
    · rw [List.mem_singleton] at hm
      subst hm
      rfl
  · simp only [if_neg hw]
    intro log hmem
    rw [allLogs_jsSet _ _ _ hwf] at hmem
    rcases List.mem_append.mp hmem with hm | hm
    · exact h log hm
    · rw [List.mem_singleton] at hm
      subst hm
      rfl

theorem lineFold_types (cfg : Cfg) (ty : EType) (lines : List (List Tok)) :
    ∀ st : PState, st.res.length ≤ st.index + 1 →
    (∀ log ∈ allLogs st.res, log.type = ty) →
    ∀ log ∈ allLogs ((lines.foldl (procLine cfg ty) st)).res, log.type = ty := by
  have hword : ∀ (toks : List Tok) (st : PState),
      st.res.length ≤ st.index + 1 →
      (∀ log ∈ allLogs st.res, log.type = ty) →
      ∀ log ∈ allLogs (toks.foldl (procWord cfg ty) st).res, log.type = ty := by
    intro toks
    induction toks with
    | nil => intro st _ h; exact h
    | cons t ts ih =>
      intro st hwf h
      exact ih _ (procWord_wf cfg ty t st hwf)
        (procWord_types cfg ty t st hwf h)
  induction lines with
  | nil => intro st _ h; exact h
  | cons l ls ih =>
    intro st hwf h
    exact ih _ (procLine_wf cfg ty l st hwf)
      (by simp only [procLine]; exact hword l st hwf h)

theorem parseToks_types (cfg : Cfg) (ty : EType) (lines : List (List Tok)) :
    ∀ log ∈ allLogs (parseToks cfg ty lines), log.type = ty := by
  unfold parseToks
  exact lineFold_types cfg ty lines
    { res := [], index := 0, left := cfg.padLeft } (by simp)
    (by intro log hmem; simp [allLogs] at hmem)

theorem charStep_lastFull (cfg : Cfg) (ty : EType) (tok : Tok) (ll : Nat)
    (c : Char) (st : CState) (hwf : st.res.length ≤ st.index + 1)
    (h : LastFull st.res) :
    LastFull (charStep cfg ty tok ll st c).res := by
  simp only [charStep]
  by_cases hc : st.left + cfg.charWidth c < cfg.contentWidth
  · simp only [if_pos hc]
    exact h
  · simp only [if_neg hc]
    exact Or.inr (getLast?_jsSet st.res st.index _ hwf)

theorem charFold_lastFull (cfg : Cfg) (ty : EType) (tok : Tok) (ll : Nat)
    (cs : List Char) :
    ∀ c0 : CState, c0.res.length ≤ c0.index + 1 → LastFull c0.res →
    LastFull (cs.foldl (charStep cfg ty tok ll) c0).res := by
  induction cs with
  | nil => intro c0 _ h; exact h
  | cons c t ih =>
    intro c0 hwf h
    exact ih _ (charStep_wf cfg ty tok ll c c0 hwf)
      (charStep_lastFull cfg ty tok ll c c0 hwf h)

theorem procWord_lastFull (cfg : Cfg) (ty : EType) (tok : Tok) (st : PState)
    (hwf : st.res.length ≤ st.index + 1) :
    LastFull (procWord cfg ty st tok).res := by
  simp only [procWord]
  by_cases hw : cfg.contentWidth < st.left + mwidth cfg.charWidth tok.text
  · simp only [if_pos hw]
    have hwf1 := charFold_wf cfg ty tok st.left tok.text.data
      { res := st.res, index := st.index, left := st.left
        textTmp := "", isNewLine := false } hwf
    exact Or.inr (getLast?_jsSet _ _ _ hwf1)
  · simp only [if_neg hw]
    exact Or.inr (getLast?_jsSet _ _ _ hwf)

theorem lineFold_lastFull (cfg : Cfg) (ty : EType) (lines : List (List Tok)) :
    ∀ st : PState, st.res.length ≤ st.index + 1 → LastFull st.res →
    LastFull ((lines.foldl (procLine cfg ty) st)).res := by
  have hword : ∀ (toks : List Tok) (st : PState),
      st.res.length ≤ st.index + 1 → LastFull st.res →
      LastFull (toks.foldl (procWord cfg ty) st).res := by
    intro toks
    induction toks with
    | nil => intro st _ h; exact h
    | cons t ts ih =>
      intro st hwf _
      exact ih _ (procWord_wf cfg ty t st hwf)
        (procWord_lastFull cfg ty t st hwf)
  induction lines with
  | nil => intro st _ h; exact h
  | cons l ls ih =>
    intro st hwf h
    exact ih _ (procLine_wf cfg ty l st hwf)
      (by simp only [procLine]; exact hword l st hwf h)

theorem parseToks_lastFull (cfg : Cfg) (ty : EType) (lines : List (List Tok)) :
    LastFull (parseToks cfg ty lines) := by
  unfold parseToks
  exact lineFold_lastFull cfg ty lines
    { res := [], index := 0, left := cfg.padLeft } (by simp) (Or.inl rfl)

/-! Slice arithmetic for the scroll window. -/

theorem take_drop_clamp (l : List (Option (List Log))) (n m : Nat) :
    (l.take (min (n + m) l.length)).drop (min n l.length) = (l.drop n).take m := by
  rw [List.drop_take]
  by_cases hn : n ≤ l.length
  · rw [min_eq_left hn]
    by_cases hm : n + m ≤ l.length
    · rw [min_eq_left hm]
      congr 1
      omega
    · rw [min_eq_right (by omega)]
      rw [List.take_of_length_le (by rw [List.length_drop])]
      rw [List.take_of_length_le (by rw [List.length_drop]; omega)]
  · have h1 : min n l.length = l.length := by omega
    have h2 : min (n + m) l.length = l.length := by omega
    have h3 : l.length ≤ n := by omega
    rw [h1, h2, Nat.sub_self, List.drop_eq_nil_of_le h3]
    simp

theorem jsSlice_nonneg (l : List (Option (List Log))) (s : Int) (m : Nat)
    (h : 0 ≤ s) :
    jsSlice l s (s + m) = (l.drop s.toNat).take m := by
  obtain ⟨n, rfl⟩ := Int.eq_ofNat_of_zero_le h
  simp only [jsSlice]
  rw [if_neg (by omega), if_neg (by omega)]
  have hk : (min (n : Int) ((l.length : Nat) : Int)).toNat = min n l.length := by
    rw [← Nat.cast_min]
    exact Int.toNat_natCast _
  have hfin : (min ((n : Int) + (m : Nat)) ((l.length : Nat) : Int)).toNat
      = min (n + m) l.length := by
    rw [← Nat.cast_add, ← Nat.cast_min]
    exact Int.toNat_natCast _
  rw [hk, hfin, Int.toNat_natCast, take_drop_clamp]

/-! `parse` ignores the `replace` flag of the entry. -/

theorem parseData_replace (cfg : Cfg) (d : Data) (b : Bool) :
    (parseData cfg { d with replace := b }).2 = (parseData cfg d).2 := by
  cases hd : d.type <;> simp [parseData, hd]

/-! Claim theorems. -/

/-- C1 counterexample: with a 90px glyph on a 100px content area the
claimed hypothesis holds (no character is wider than the content
width), yet the forced placement anchors the glyph at the 15px left
inset, and `left + width = 105 > 100`.  The fit tests of `parse`
compare `left` (which starts at `contentPadding[3]`, not 0) against
`contentWidth`, so the usable width is `contentWidth - padLeft`. -/
theorem segment_overflow_within_charfit :
    cfgX.charWidth 'X' ≤ cfgX.contentWidth ∧
    logXwide ∈ allLogs (parseToks cfgX EType.output [[tokX]]) ∧
    cfgX.contentWidth < logXwide.left + logXwide.width := by
  decide

/-- C1 (corrected): if every character of every token fits together
with the left inset (`padLeft + charWidth c ≤ contentWidth`, and the
inset itself is within the content width), then every segment of the
segmentation output satisfies `left + width ≤ contentWidth`. -/
theorem wrapped_segments_fit (cfg : Cfg) (ty : EType)
    (lines : List (List Tok))
    (hpad : cfg.padLeft ≤ cfg.contentWidth)
    (hcs : ∀ toks ∈ lines, ∀ t ∈ toks, ∀ c ∈ t.text.data,
      cfg.padLeft + cfg.charWidth c ≤ cfg.contentWidth) :
    ∀ log ∈ allLogs (parseToks cfg ty lines),
      log.left + log.width ≤ cfg.contentWidth := by
  have h := lineFold_pinv cfg ty lines
    { res := [], index := 0, left := cfg.padLeft } hpad hcs
    ⟨by simp, by intro log hm; simp [allLogs] at hm, le_refl _, hpad⟩
  unfold parseToks
  exact h.2.1

/-- C1 witness: a concrete 3px word on a 10px content area with unit
glyphs; the theorem yields the fit of its (only) segment. -/
theorem wrapped_segments_fit_w :
    logAbc.left + logAbc.width ≤ cfg3.contentWidth :=
  wrapped_segments_fit cfg3 EType.output [[tokAbc]] (by decide) (by decide)
    logAbc (by decide)

/-- C4 counterexample: the empty text splits into exactly one raw line,
but segmentation produces no line group at all for it ([] of groups),
so the group count falls short of the raw line count. -/
theorem empty_text_no_lineGroup :
    (splitLines "").length = 1 ∧ (parseData cfg0 dEmptyOut).2 = [] := by
  decide

/-- C4 (corrected): each raw line whose tokenization is non-empty
yields at least one LineGroup; raw lines with no tokens (blank lines,
empty text) yield none (an `undefined` hole or nothing), so the number
of real groups is at least the number of token-bearing raw lines
rather than the number of raw lines. -/
theorem lineGroups_cover_token_lines (cfg : Cfg) (ty : EType)
    (lines : List (List Tok)) :
    lines.countP (fun toks => !toks.isEmpty) ≤
      countSome (parseToks cfg ty lines) := by
  have h := lineFold_count cfg ty lines
    { res := [], index := 0, left := cfg.padLeft } (by simp)
  unfold parseToks
  simpa [countSome] using h

/-- C5 counterexample: when the first character of an overflowing token
does not fit at the current position, `parse` closes the pending
accumulator while it is still empty, emitting a Segment whose text is
`""` (here the empty segment preceding the forced wide glyph). -/
theorem empty_segment_emitted :
    logXempty ∈ allLogs (parseToks cfgX EType.output [[tokX]]) ∧
    logXempty.text = "" := by
  decide

/-- C5 (corrected): segmentation can emit empty Segments, but it never
drops text: the concatenated character content of all Segments equals
the concatenated character content of all word tokens, in order — in
particular a character wider than the content area is still placed. -/
theorem segmentation_drops_no_text (cfg : Cfg) (ty : EType)
    (lines : List (List Tok)) :
    segChars (parseToks cfg ty lines)
      = (lines.map (fun toks => (toks.map (fun t => t.text.data)).flatten)).flatten := by
  unfold parseToks
  rw [lineFold_chars cfg ty lines
    { res := [], index := 0, left := cfg.padLeft } (by simp)]
  simp [segChars, allLogs]

/-- C9 counterexample: `parse` overwrites `data.text` of an INPUT entry
with `prefix + escape(text)` before layout, so the caller's entry
object is mutated. -/
theorem append_mutates_input_entry :
    (parseData cfg0 dInX).1 ≠ dInX := by
  decide

/-- C9 (corrected): appending never mutates an OUTPUT entry, and for an
INPUT entry only `text` changes — it becomes `prefix ++ escape(text)`
while `type` and `replace` are preserved. -/
theorem append_mutates_only_input_text (cfg : Cfg) (d : Data) :
    ((parseData cfg d).1.type = d.type ∧
      (parseData cfg d).1.replace = d.replace) ∧
    (d.type = EType.output → (parseData cfg d).1 = d) ∧
    (d.type = EType.input →
      (parseData cfg d).1.text = cfg.prefixStr ++ cfg.esc d.text) := by
  cases hd : d.type <;> simp [parseData, hd]

/-- C9 witness: an OUTPUT entry comes back exactly unchanged. -/
theorem append_mutates_only_input_text_w :
    (parseData cfg0 dA).1 = dA :=
  (append_mutates_only_input_text cfg0 dA).2.1 rfl

/-- C10 (confirmed): appending an OUTPUT entry with empty text and
`replace` unset produces zero groups (the DOM tokenizer yields no
child nodes for an empty line), leaving the LogCache exactly
unchanged. -/
theorem empty_output_append_noop (cfg : Cfg) (st : DState) (d : Data)
    (htok : cfg.tokenize "" = [])
    (hd : d = { type := EType.output, text := "", replace := false }) :
    (emitModel cfg st d).cacheLogs = st.cacheLogs := by
  subst hd
  have h2 : (parseData cfg
      { type := EType.output, text := "", replace := false }).2 = [] := by
    simp only [parseData]
    rw [if_neg (by intro hh; cases hh)]
    have hsplit : splitLines "" = [""] := rfl
    rw [hsplit]
    simp only [List.map_cons, List.map_nil, htok]
    rfl
  simp only [emitModel, h2]
  simp

/-- C10 witness: appending the empty OUTPUT entry on top of a cached
input line leaves the cache untouched. -/
theorem empty_output_append_noop_w :
    (emitModel cfg0 stIn dEmptyOut).cacheLogs = stIn.cacheLogs :=
  empty_output_append_noop cfg0 stIn dEmptyOut (by decide) rfl

/-- C2 counterexample: from an empty cache, an entry with empty text
leaves the cache empty, and `pop` on the empty cache is a no-op — the
`replace:true` variant then has the same group count as the
`replace:false` one, not one fewer. -/
theorem replace_no_pop_on_empty_cache :
    (emitModel cfg0 { cacheLogs := [], renderLogs := [] } dEmptyOut).cacheLogs = [] ∧
    (emitModel cfg0 (emitModel cfg0 { cacheLogs := [], renderLogs := [] } dEmptyOut)
        { dA with replace := true }).cacheLogs.length
      = (emitModel cfg0 (emitModel cfg0 { cacheLogs := [], renderLogs := [] } dEmptyOut)
          { dA with replace := false }).cacheLogs.length := by
  decide

/-- C2 (corrected): whenever the cache after the first append is
non-empty, appending the second entry with `replace:true` yields
exactly one fewer cached LineGroup than appending it with
`replace:false`; on an empty cache `pop` is a no-op and the counts
coincide. -/
theorem replace_pops_last_group (cfg : Cfg) (st : DState) (d1 d2 : Data)
    (h : (emitModel cfg st d1).cacheLogs ≠ []) :
    (emitModel cfg (emitModel cfg st d1)
        { d2 with replace := true }).cacheLogs.length + 1
      = (emitModel cfg (emitModel cfg st d1)
          { d2 with replace := false }).cacheLogs.length := by
  revert h
  generalize emitModel cfg st d1 = mid
  intro h
  simp only [emitModel, parseData_replace cfg d2 true,
    parseData_replace cfg d2 false]
  dsimp only
  simp only [if_true, Bool.false_eq_true, if_false]
  simp only [List.length_append, List.length_dropLast]
  have hlen : 1 ≤ mid.cacheLogs.length := List.length_pos.mpr h
  omega

/-- C2 witness: after appending one non-empty OUTPUT entry, replacing
with a second entry gives one group fewer than plain appending. -/
theorem replace_pops_last_group_w :
    (emitModel cfg0 (emitModel cfg0 stIn dA)
        { dA with replace := true }).cacheLogs.length + 1
      = (emitModel cfg0 (emitModel cfg0 stIn dA)
          { dA with replace := false }).cacheLogs.length :=
  replace_pops_last_group cfg0 stIn dA dA (by decide)

/-- C3 counterexample: with a five-group cache, window 10 and scroll
offset -3 the derived start index is -3, and JS `slice` interprets the
negative start as an offset from the end: the window is the middle
slice (groups 2..4) — neither the clamped slice starting at the
computed index (all five groups) nor an empty degradation. -/
theorem renderByTop_negative_slice :
    startIdx cfg3 (-3) = -3 ∧
    (renderByTop cfg3 st3 (-3)).renderLogs = [outG "2", outG "3", outG "4"] ∧
    (renderByTop cfg3 st3 (-3)).renderLogs ≠ [] ∧
    (renderByTop cfg3 st3 (-3)).renderLogs
      ≠ (st3.cacheLogs.drop ((-3 : Int)).toNat).take cfg3.maxLength := by
  have hs : startIdx cfg3 (-3) = -3 := by
    unfold startIdx cfg3
    norm_num
    rw [show ((-3 : ℚ)) = ((-3 : ℤ) : ℚ) by norm_num, Int.ceil_intCast]
  have hr : (renderByTop cfg3 st3 (-3)).renderLogs
      = jsSlice st3.cacheLogs (-3) (-3 + (cfg3.maxLength : Int)) := by
    simp only [renderByTop, hs]
  refine ⟨hs, ?_, ?_, ?_⟩ <;> rw [hr] <;> decide

/-- C3 (corrected): when the computed start index
`ceil(top * pixelRatio / (fontSize + logGap))` is non-negative, the
derived window is the clamped slice `[startIndex, startIndex +
maxLength)` of the cache (possibly empty past the end, with no error);
a negative start index instead selects with JS negative-slice
semantics, counting from the end of the cache. -/
theorem renderByTop_window (cfg : Cfg) (st : DState) (top : ℚ)
    (h : 0 ≤ startIdx cfg top) :
    (renderByTop cfg st top).renderLogs
      = (st.cacheLogs.drop (startIdx cfg top).toNat).take cfg.maxLength := by
  simp only [renderByTop]
  exact jsSlice_nonneg st.cacheLogs (startIdx cfg top) cfg.maxLength h

/-- C3 witness: scroll offset 2 over the five-group cache selects the
clamped slice starting at index 2. -/
theorem renderByTop_window_w :
    (renderByTop cfg3 st3 2).renderLogs
      = (st3.cacheLogs.drop (startIdx cfg3 2).toNat).take cfg3.maxLength :=
  renderByTop_window cfg3 st3 2 (by simp [startIdx, cfg3])

/-- C6 (code bug): appending the OUTPUT entry `"a\n\nb"` leaves an
`undefined` hole in the cache for the blank middle line, and the very
next content render reads `.length` of that hole and raises a
TypeError — `append` is not total on well-formed entries containing
blank lines. -/
theorem blank_line_append_raises :
    renderContentModel cfg0 true
      (emitModel cfg0 { cacheLogs := [], renderLogs := [] } dBlank)
      = Except.error "TypeError" := rfl

/-- C7 counterexample: appending an OUTPUT entry changes the window
derivation, yet no scroll event is emitted, because the whole
cursor/scroll notification block of `renderContent` is guarded by
`renderEditable` (which is false after an OUTPUT append). -/
theorem no_scroll_event_after_output :
    renderContentModel cfg0 true
      (emitModel cfg0 { cacheLogs := [], renderLogs := [] } dA)
      = Except.ok [] := rfl

/-- C7 (corrected): a scroll notification is emitted only when
`renderEditable` holds (focus on an input line that is last in the
window), and whenever one is emitted its scrollHeight and scrollTop
are clamped to be non-negative. -/
theorem scroll_event_only_when_editable (cfg : Cfg) (focus : Bool)
    (st : DState) (evs : List Ev) (h t : ℚ)
    (hok : renderContentModel cfg focus st = Except.ok evs)
    (hmem : Ev.scroll h t ∈ evs) :
    0 ≤ h ∧ 0 ≤ t ∧ renderEditable focus st = true := by
  unfold renderContentModel at hok
  by_cases hall : st.renderLogs.all (fun o => o.isSome) = true
  case neg =>
    rw [if_neg hall] at hok
    cases hok
  case pos =>
    rw [if_pos hall] at hok
    by_cases hed : renderEditable focus st = true
    case neg =>
      rw [if_neg hed] at hok
      injection hok with hok
      subst hok
      simp at hmem
    case pos =>
      rw [if_pos hed] at hok
      cases hlast : lastOf st.renderLogs with
      | none =>
        rw [hlast] at hok
        injection hok with hok
        subst hok
        simp at hmem
      | some llog =>
        rw [hlast] at hok
        injection hok with hok
        subst hok
        simp only [List.mem_cons, List.not_mem_nil, or_false] at hmem
        rcases hmem with hm | hm
        · simp at hm
        · injection hm with h1 h2
          subst h1
          subst h2
          exact ⟨le_max_right _ _, le_max_right _ _, hed⟩

/-- C7 witness: with focus on a cached input line, the render emits a
cursor and a scroll event, and the scroll payload is non-negative. -/
theorem scroll_event_only_when_editable_w :
    renderEditable true stIn = true :=
  (scroll_event_only_when_editable cfg0 true stIn _ _ _ rfl
    (List.mem_cons_of_mem _ (List.mem_singleton.mpr rfl))).2.2

/-- C8 counterexample: appending an OUTPUT entry with empty text
appends no groups, so the previously cached input line is still the
last one and the cursor remains eligible even right after the OUTPUT
append. -/
theorem cursor_survives_empty_output_append :
    cacheEditable true (emitModel cfg0 stIn dEmptyOut) = true ∧
    renderEditable true (emitModel cfg0 stIn dEmptyOut) = true := by
  decide

/-- C8 (corrected): appending an OUTPUT entry whose segmentation yields
at least one LineGroup makes cursor eligibility false right after the
append, even with focus held (the last cached segment then carries the
OUTPUT type). -/
theorem output_append_disables_cursor (cfg : Cfg) (focus : Bool)
    (st : DState) (d : Data) (hty : d.type = EType.output)
    (hne : (parseData cfg d).2 ≠ []) :
    cacheEditable focus (emitModel cfg st d) = false ∧
    renderEditable focus (emitModel cfg st d) = false := by
  have hgroups : (parseData cfg d).2
      = parseToks cfg EType.output ((splitLines d.text).map cfg.tokenize) := by
    simp [parseData, hty]
  have hlf : LastFull (parseData cfg d).2 := by
    rw [hgroups]
    exact parseToks_lastFull cfg EType.output _
  rcases hlf with hnil | ⟨gs, hgl, hgsne⟩
  · exact absurd hnil hne
  · have hcache : (emitModel cfg st d).cacheLogs
        = (if d.replace then st.cacheLogs.dropLast else st.cacheLogs)
          ++ (parseData cfg d).2 := rfl
    have hlastc : lastOf (emitModel cfg st d).cacheLogs = gs.getLast? := by
      rw [hcache]
      unfold lastOf
      rw [List.getLast?_append_of_ne_nil _ hne, hgl]
    have hsome := List.getLast?_eq_getLast_of_ne_nil hgsne
    have hmemgs : some gs ∈ (parseData cfg d).2 := by
      have h2 := List.getLast?_eq_getLast_of_ne_nil hne
      rw [hgl] at h2
      injection h2 with h2
      rw [h2]
      exact List.getLast_mem hne
    have htype : (gs.getLast hgsne).type = EType.output := by
      apply parseToks_types cfg EType.output ((splitLines d.text).map cfg.tokenize)
      rw [← hgroups]
      exact mem_allLogs _ gs _ hmemgs (List.getLast_mem hgsne)
    have hc : cacheEditable focus (emitModel cfg st d) = false := by
      unfold cacheEditable
      rw [hlastc, hsome]
      simp [htype]
    refine ⟨hc, ?_⟩
    unfold renderEditable
    rw [hc]
    simp

/-- C8 witness: right after appending the one-token OUTPUT entry, the
cursor is not eligible even with focus held. -/
theorem output_append_disables_cursor_w :
    cacheEditable true (emitModel cfg0 { cacheLogs := [], renderLogs := [] } dA)
        = false ∧
    renderEditable true (emitModel cfg0 { cacheLogs := [], renderLogs := [] } dA)
        = false :=
  output_append_disables_cursor cfg0 true
    { cacheLogs := [], renderLogs := [] } dA rfl (by decide)

end TermUI
